import Mathlib

/-!
Verification of the training script `src/transduction/load_data.py` of the
scGAT repository.  The script trains a GAT node classifier: it builds
train/val/test masks, partitions the graph into clusters (`ClusterData`),
assembles mini-batches preserving inter-cluster edges (`ClusterLoader`),
runs an early-stopping training loop with per-epoch checkpoints, and
restores the best checkpoint for final evaluation.

The definitions below are a shallow embedding of that script: tensors
become lists, tensor values become rationals (exact arithmetic), and the
module-level statements become explicit state transitions.
-/

/-! ## Training loop (lines 352-392 of load_data.py)

`best = nEpochs + 1`, `best_epoch = 0`, `bad_counter = 0`; each epoch
appends `train(epoch)` to `loss_values`, saves a checkpoint file
`'{epoch}-{replicate}.pkl'`, updates `best`/`best_epoch`/`bad_counter`,
breaks when `bad_counter == patience`, and otherwise removes every
checkpoint file whose epoch number is below `best_epoch`.  After the
loop, every file with epoch number above `best_epoch` is removed and the
`best_epoch` checkpoint is loaded.  The per-epoch losses returned by
`train` are abstracted as a function `losses : ℕ → ℚ`; `files` holds the
epoch numbers of the checkpoint files currently on disk, `saved` the
epoch numbers ever written. -/

structure TrainState where
  lossValues : List ℚ
  badCounter : ℕ
  best : ℚ
  bestEpoch : ℕ
  files : List ℕ
  saved : List ℕ
  epochsRun : ℕ
  broke : Bool

/-- Initial state: `loss_values = []`, `bad_counter = 0`,
`best = nEpochs + 1`, `best_epoch = 0` (lines 354-357). -/
def initState (nEpochs : ℕ) : TrainState :=
  ⟨[], 0, (nEpochs : ℚ) + 1, 0, [], [], 0, false⟩

/-- One iteration of the epoch loop (lines 358-376): record the loss,
save the checkpoint `e`, update best/bad_counter, break when
`bad_counter == patience`, else delete the files with epoch number below
`best_epoch`. -/
def epochStep (losses : ℕ → ℚ) (patience : ℕ) (s : TrainState) (e : ℕ) :
    TrainState :=
  if losses e < s.best then
    -- `best = loss; best_epoch = epoch; bad_counter = 0`, then
    -- `if bad_counter == patience: break` with `bad_counter = 0`
    if 0 = patience then
      ⟨s.lossValues ++ [losses e], 0, losses e, e,
       s.files ++ [e], s.saved ++ [e], s.epochsRun + 1, true⟩
    else
      ⟨s.lossValues ++ [losses e], 0, losses e, e,
       (s.files ++ [e]).filter (fun f => !(f < e)),
       s.saved ++ [e], s.epochsRun + 1, false⟩
  else
    -- `bad_counter += 1`, then the break check with the new counter
    if s.badCounter + 1 = patience then
      ⟨s.lossValues ++ [losses e], s.badCounter + 1, s.best, s.bestEpoch,
       s.files ++ [e], s.saved ++ [e], s.epochsRun + 1, true⟩
    else
      ⟨s.lossValues ++ [losses e], s.badCounter + 1, s.best, s.bestEpoch,
       (s.files ++ [e]).filter (fun f => !(f < s.bestEpoch)),
       s.saved ++ [e], s.epochsRun + 1, false⟩

/-- `for epoch in range(nEpochs): ... break` — `m` is the number of
remaining epochs, `k` the next epoch index. -/
def loopFrom (losses : ℕ → ℚ) (patience : ℕ) : ℕ → ℕ → TrainState → TrainState
  | 0, _, s => s
  | m + 1, k, s =>
    let s' := epochStep losses patience s k
    if s'.broke then s' else loopFrom losses patience m (k + 1) s'

/-- The whole epoch loop of the script. -/
def runLoop (losses : ℕ → ℚ) (nEpochs patience : ℕ) : TrainState :=
  loopFrom losses patience nEpochs 0 (initState nEpochs)

/-- Post-loop cleanup (lines 378-382): remove every checkpoint whose
epoch number is above `best_epoch`. -/
def finalFiles (s : TrainState) : List ℕ :=
  s.files.filter (fun f => !(s.bestEpoch < f))

/-- Line 389: `model.load_state_dict(torch.load('{best_epoch}-...pkl'))` —
the epoch whose checkpoint is restored for final evaluation. -/
def restoredEpoch (s : TrainState) : ℕ := s.bestEpoch

/-- The running best `best` before epoch `k`: the fold of `min` over the
recorded losses, started at `nEpochs + 1`. -/
def bestBefore (losses : ℕ → ℚ) (nEpochs k : ℕ) : ℚ :=
  ((List.range k).map losses).foldl min ((nEpochs : ℚ) + 1)

/-- The value of `bad_counter` after epoch `e`: reset to 0 when the
loss of the epoch strictly improves on the best seen so far, else incremented. -/
def badCount (losses : ℕ → ℚ) (nEpochs : ℕ) : ℕ → ℕ
  | 0 => if losses 0 < bestBefore losses nEpochs 0 then 0 else 1
  | e + 1 =>
    if losses (e + 1) < bestBefore losses nEpochs (e + 1) then 0
    else badCount losses nEpochs e + 1

/-- Loss function used in the C1 witness. -/
def wLosses : ℕ → ℚ := fun i => if i = 1 then 0 else 2

/-- Loss function used in the C5 counterexample and the C2 witness. -/
def cexLosses : ℕ → ℚ := fun e => if e = 0 then 5 else 1

/-! ## Split masks (lines 242-250)

`train_mask = [1 if i in idx_train else 0 for i in range(N)]` followed by
`torch.tensor(..., dtype=torch.bool)`; likewise for `val_mask` and
`test_mask`. -/

/-- The boolean mask built from an index list: entry `i` is true exactly
when `i` occurs in `idx`. -/
def makeMask (n : ℕ) (idx : List ℕ) : List Bool :=
  (List.range n).map (fun i => idx.contains i)

/-- Exactly one of three propositions holds. -/
def ExactlyOne (a b c : Prop) : Prop :=
  (a ∧ ¬b ∧ ¬c) ∨ (¬a ∧ b ∧ ¬c) ∨ (¬a ∧ ¬b ∧ c)

/-! ## Loss and accuracy (lines 42-62), in exact rational arithmetic -/

/-- `F.nll_loss(logits, labels, reduction='none')`: the negative of the
log-probability each row assigns to its label. -/
def nllLossNone (logits : List (List ℚ)) (labels : List ℕ) : List ℚ :=
  List.zipWith (fun row lbl => -(row.getD lbl 0)) logits labels

/-- 0/1 indicator of a boolean mask entry (`mask.type(torch.float)`,
`correct *= mask`, `mask.sum()`). -/
def boolToQ (b : Bool) : ℚ := if b then 1 else 0

/-- `masked_nll_loss` (lines 49-54): per-node nll losses, mask cast to
float and renormalised by `mask / (mask.sum() / mask.size()[0])`,
elementwise product, then `sum(loss) / loss.size()[0]`. -/
def masked_nll_loss (logits : List (List ℚ)) (labels : List ℕ)
    (mask : List Bool) : ℚ :=
  let loss := nllLossNone logits labels
  let maskf : List ℚ := mask.map boolToQ
  let maskn : List ℚ := maskf.map (fun m => m / (maskf.sum / (maskf.length : ℚ)))
  let lossm := List.zipWith (fun a b => a * b) loss maskn
  lossm.sum / (lossm.length : ℚ)

/-- Index of the first maximal entry of a row, with running best value
and index — the model of `output.max(1)[1]`. -/
def idxOfMaxGo : List ℚ → ℕ → ℕ → ℚ → ℕ
  | [], _, bi, _ => bi
  | x :: xs, i, bi, bv =>
    if bv < x then idxOfMaxGo xs (i + 1) i x else idxOfMaxGo xs (i + 1) bi bv

/-- `output.max(1)[1]` for one row. -/
def idxOfMax : List ℚ → ℕ
  | [] => 0
  | x :: xs => idxOfMaxGo xs 1 0 x

/-- `accuracy` (lines 42-46): `preds.eq(labels)` summed and divided by
`len(labels)`. -/
def accuracy (output : List (List ℚ)) (labels : List ℕ) : ℚ :=
  (List.zipWith (fun r l => if idxOfMax r = l then (1 : ℚ) else 0)
    output labels).sum / (labels.length : ℚ)

/-- `masked_accuracy` (lines 56-62): `correct *= mask` then
`correct.sum() / mask.sum()`. -/
def masked_accuracy (output : List (List ℚ)) (labels : List ℕ)
    (mask : List Bool) : ℚ :=
  let correct := List.zipWith (fun r l => if idxOfMax r = l then (1 : ℚ) else 0)
    output labels
  let correctm := List.zipWith (fun a b => a * b) correct (mask.map boolToQ)
  correctm.sum / (mask.map boolToQ).sum

/-! ## Sparse adjacency model (torch_sparse operations used by
`ClusterData` / `ClusterLoader`)

A `SparseT` is a 2-d sparse tensor: its shape and its list of
`(row, col, value)` entries.  The operations below are the ones the
script uses: `narrow(0, start, length)`, `t()`, `cat(..., dim=0)` and
`coo()` (which just reads the entries). -/

structure SparseT where
  nrows : ℕ
  ncols : ℕ
  entries : List (ℕ × ℕ × ℚ)

/-- `A.narrow(0, start, length)`: keep the rows in `[start, start+length)`
and shift them down by `start`. -/
def SparseT.narrowRows (A : SparseT) (start length : ℕ) : SparseT :=
  ⟨length, A.ncols,
   A.entries.filterMap (fun e =>
     if start ≤ e.1 ∧ e.1 < start + length then
       some (e.1 - start, e.2.1, e.2.2)
     else none)⟩

/-- `A.narrow(1, start, length)`: keep the columns in
`[start, start+length)` and shift them left by `start`. -/
def SparseT.narrowCols (A : SparseT) (start length : ℕ) : SparseT :=
  ⟨A.nrows, length,
   A.entries.filterMap (fun e =>
     if start ≤ e.2.1 ∧ e.2.1 < start + length then
       some (e.1, e.2.1 - start, e.2.2)
     else none)⟩

/-- `A.t()`. -/
def SparseT.t (A : SparseT) : SparseT :=
  ⟨A.ncols, A.nrows, A.entries.map (fun e => (e.2.1, e.1, e.2.2))⟩

/-- `cat([A, B], dim=0)`: stack row blocks. -/
def SparseT.catRows (A B : SparseT) : SparseT :=
  ⟨A.nrows + B.nrows, A.ncols,
   A.entries ++ B.entries.map (fun e => (e.1 + A.nrows, e.2.1, e.2.2))⟩

/-- `cat(list, dim=0)` over a list of row blocks. -/
def catRowsList : List SparseT → SparseT
  | [] => ⟨0, 0, []⟩
  | A :: rest => A.catRows (catRowsList rest)

/-! ## ClusterData / ClusterLoader (lines 73-228)

`partptr` is the partition pointer produced by `adj.partition`; part `p`
occupies the contiguous node range `[partptr[p], partptr[p+1])` of the
permuted graph. -/

/-- `int(partptr[idx])` — start of part `idx`. -/
def partStart (partptr : List ℕ) (p : ℕ) : ℕ := partptr.getD p 0

/-- `int(partptr[idx + 1]) - start` — length of part `idx`. -/
def partLen (partptr : List ℕ) (p : ℕ) : ℕ :=
  partptr.getD (p + 1) 0 - partptr.getD p 0

/-- `ClusterData.__len__`: `partptr.numel() - 1`. -/
def clusterLen (partptr : List ℕ) : ℕ := partptr.length - 1

/-- `ClusterData.__getitem__` / `HelperDataset.__getitem__` on one
node-level attribute: `item.narrow(0, start, length)`. -/
def clusterGetItemAttr {α : Type} (partptr : List ℕ) (idx : ℕ)
    (attr : List α) : List α :=
  (attr.drop (partStart partptr idx)).take (partLen partptr idx)

/-- `HelperDataset.__getitem__` on the adjacency: the stored full
(permuted) adjacency has `size(0) = num_nodes`, so it is narrowed along
dim 0 to the row range of the part. -/
def helperItemAdj (A : SparseT) (partptr : List ℕ) (p : ℕ) : SparseT :=
  A.narrowRows (partStart partptr p) (partLen partptr p)

/-- The adjacency assembled by `ClusterLoader.collate` (lines 192-211)
for the batch `parts`: concatenate the row blocks of the parts, transpose,
narrow to the (original) column range of each part, concatenate, transpose
back. -/
def collateAdj (A : SparseT) (partptr : List ℕ) (parts : List ℕ) : SparseT :=
  let adj0 := catRowsList (parts.map (helperItemAdj A partptr))
  let adj1 := adj0.t
  let adj2 := catRowsList (parts.map (fun p =>
    adj1.narrowRows (partStart partptr p) (partLen partptr p)))
  adj2.t

/-- `data.num_nodes = adj.size(0)` in `collate`. -/
def collateNumNodes (A : SparseT) (partptr : List ℕ) (parts : List ℕ) : ℕ :=
  (collateAdj A partptr parts).nrows

/-- The global (permuted-graph) node index of batch position `i`: walk
the concatenated part ranges. -/
def globalIdx (partptr : List ℕ) : List ℕ → ℕ → Option ℕ
  | [], _ => none
  | p :: ps, i =>
    if i < partLen partptr p then some (partStart partptr p + i)
    else globalIdx partptr ps (i - partLen partptr p)

/-! ## Statement-level model of the script (name resolution and error
propagation)

Python statements are modelled by the names they read and bind.  An
`assign` first resolves all the names it reads (in evaluation order) —
an unresolved name raises `NameError` — and then performs its external
operation, whose outcome is drawn from an oracle: the next oracle entry
is `none` when the operation succeeds and `some e` when the dependency
raises the error `e`.  `tryExcept` is the `try/except` of Python; the script
never uses it, which is exactly what claim C8 is about. -/

inductive Stmt where
  | assign (binds : List String) (reads : List String)
  | seq (a b : Stmt)
  | tryExcept (body handler : Stmt)
  | skip

/-- Run a statement: name resolution first, then the oracle decides
whether the external operation raises.  Returns the outcome and the
remaining oracle. -/
def runStmt : Stmt → List (Option String) → List String →
    Except String (List String) × List (Option String)
  | .assign binds reads, o, env =>
    match reads.find? (fun n => !(env.contains n)) with
    | some n => (.error ("NameError: " ++ n), o)
    | none =>
      match o with
      | [] => (.ok (env ++ binds), [])
      | none :: rest => (.ok (env ++ binds), rest)
      | some e :: rest => (.error e, rest)
  | .seq a b, o, env =>
    match runStmt a o env with
    | (.ok env', o') => runStmt b o' env'
    | (.error e, o') => (.error e, o')
  | .tryExcept body handler, o, env =>
    match runStmt body o env with
    | (.ok env', o') => (.ok env', o')
    | (.error _, o') => runStmt handler o' env
  | .skip, o, env => (.ok env, o)

/-- Number of `try/except` statements in a statement tree. -/
def countTry : Stmt → ℕ
  | .assign _ _ => 0
  | .seq a b => countTry a + countTry b
  | .tryExcept body handler => countTry body + countTry handler + 1
  | .skip => 0

/-- All names a statement tree binds. -/
def stmtBinds : Stmt → List String
  | .assign binds _ => binds
  | .seq a b => stmtBinds a ++ stmtBinds b
  | .tryExcept body handler => stmtBinds body ++ stmtBinds handler
  | .skip => []

/-- All names a statement tree reads. -/
def stmtReads : Stmt → List String
  | .assign _ reads => reads
  | .seq a b => stmtReads a ++ stmtReads b
  | .tryExcept body handler => stmtReads body ++ stmtReads handler
  | .skip => []

/-- Sequence a list of statements. -/
def seqAll (l : List Stmt) : Stmt := l.foldr Stmt.seq Stmt.skip

/-- The Python builtins that the statements of the script resolve. -/
def builtinsEnv : List String :=
  ["print", "range", "open", "int", "len", "super"]

/-- The module-level statements of `load_data.py`, in order: the imports
(lines 10-23), the four `def`s and `get_data` (whose default argument
`replicate=sys.argv[1]` reads `sys` at definition time), the `class GAT`
statement (its base class expression reads `torch`), and the module-level
training code (lines 285-392).  A `def`/`class` statement binds its name
without running its body; an `if`/`for` statement is modelled as a single
statement reading the names its condition and body use. -/
def moduleStmt : Stmt := seqAll [
  .assign ["os", "sys", "pickle", "time", "random", "glob"] [],
  .assign ["np"] [],
  .assign ["pd"] [],
  .assign ["List"] [],
  .assign ["copy"] [],
  .assign ["osp"] [],
  .assign ["torch"] [],
  .assign ["torch"] [],
  .assign ["SparseTensor", "cat"] [],
  .assign ["Data"] [],
  .assign ["F"] [],
  .assign ["GCNConv", "GATConv"] [],
  .assign ["train_test_split"] [],
  .assign ["scipysparse2torchsparse"] [],
  .assign ["accuracy"] [],
  .assign ["masked_nll_loss"] [],
  .assign ["masked_accuracy"] [],
  .assign ["get_data"] ["sys"],
  .assign ["GAT"] ["torch"],
  .assign ["device"] ["torch", "Device"],
  .assign [] ["random", "rs"],
  .assign [] ["np", "rs"],
  .assign [] ["torch", "rs"],
  .assign [] ["Device", "torch", "rs"],
  .assign ["model"] ["GAT", "d", "nHiddenUnits", "nHeads", "alpha",
                     "dropout", "GATConv", "device"],
  .assign ["optimizer"] ["torch", "model", "LR", "WeightDecay"],
  .assign ["train"] [],
  .assign ["compute_test"] [],
  .assign ["t_total"] ["time"],
  .assign ["loss_values"] [],
  .assign ["bad_counter"] [],
  .assign ["best"] ["nEpochs"],
  .assign ["best_epoch"] [],
  .assign ["epoch", "loss_values", "bad_counter", "best", "best_epoch",
           "files", "file", "epoch_nb"]
          ["nEpochs", "loss_values", "train", "time", "cl", "device",
           "optimizer", "model", "masked_nll_loss", "clip", "torch",
           "masked_accuracy", "fastmode", "Data", "node_features",
           "edge_index", "labels", "train_mask", "val_mask", "test_mask",
           "np", "print", "replicate", "best", "best_epoch",
           "bad_counter", "patience", "glob", "int", "os"],
  .assign ["files"] ["glob", "replicate"],
  .assign ["file", "epoch_nb"] ["files", "int", "replicate", "best_epoch", "os"],
  .assign [] ["print"],
  .assign [] ["print", "time", "t_total"],
  .assign [] ["print", "best_epoch"],
  .assign [] ["model", "torch", "best_epoch", "replicate"],
  .assign [] ["compute_test"]]

/-- The body of `get_data` (lines 73-262): the two local `class`
statements, the pickle load, the tensor conversions, the train/test
splits, the mask construction, `del datapkl`, the `Data` object, the
`ClusterData` and the `ClusterLoader(cd, batch_size=BatchSize, ...)`
construction, and the `return`. -/
def getDataBody : Stmt := seqAll [
  .assign ["ClusterData"] ["torch"],
  .assign ["ClusterLoader"] ["torch"],
  .assign ["f", "datapkl"] ["open", "os", "pdfp", "data_pkl", "pickle"],
  .assign ["node_features"] ["torch", "datapkl"],
  .assign ["labels"] ["torch", "datapkl"],
  .assign ["edge_index"] ["scipysparse2torchsparse", "datapkl"],
  .assign ["idx_train", "idx_test"]
          ["train_test_split", "range", "node_features", "labels"],
  .assign ["idx_test", "idx_val"] ["train_test_split", "idx_test", "labels"],
  .assign ["train_mask"] ["idx_train", "range", "node_features"],
  .assign ["val_mask"] ["idx_val", "range", "node_features"],
  .assign ["test_mask"] ["idx_test", "range", "node_features"],
  .assign ["train_mask"] ["torch", "train_mask"],
  .assign ["val_mask"] ["torch", "val_mask"],
  .assign ["test_mask"] ["torch", "test_mask"],
  .assign [] ["datapkl"],
  .assign ["d"] ["Data", "node_features", "edge_index", "labels",
                 "train_mask", "val_mask", "test_mask"],
  .assign ["cd"] ["ClusterData", "d", "NumParts"],
  .assign ["cl"] ["ClusterLoader", "cd", "BatchSize"],
  .assign [] ["cl"]]

/-- The environment a call of `get_data` runs in: builtins, the module's
imports and definitions, and the six parameters of the function. -/
def getDataEnv : List String :=
  builtinsEnv ++
  ["os", "sys", "pickle", "time", "random", "glob", "np", "pd", "List",
   "copy", "osp", "torch", "SparseTensor", "cat", "Data", "F", "GCNConv",
   "GATConv", "train_test_split", "scipysparse2torchsparse", "accuracy",
   "masked_nll_loss", "masked_accuracy", "get_data", "GAT"] ++
  ["pdfp", "data_pkl", "replicate", "NumParts", "Device", "fastmode"]

/-- The names claim C6 lists as used by the module-level training code
without being bound anywhere at module level. -/
def unboundNames : List String :=
  ["Device", "rs", "LR", "WeightDecay", "nEpochs", "patience", "clip",
   "nHiddenUnits", "nHeads", "alpha", "dropout", "d", "cl",
   "node_features", "replicate"]

/-! ## Loop invariant and postcondition -/

/-- Invariant of the epoch loop before processing epoch `k` (no break so
far). -/
structure LoopInv (losses : ℕ → ℚ) (nE pat k : ℕ) (s : TrainState) : Prop where
  epochs : s.epochsRun = k
  brokeFalse : s.broke = false
  lossVals : s.lossValues = (List.range k).map losses
  savedEq : s.saved = List.range k
  filesEq : s.files = (List.range k).filter (fun f => !(f < s.bestEpoch))
  bestEq : s.best = bestBefore losses nE k
  badEq : s.badCounter = if k = 0 then 0 else badCount losses nE (k - 1)
  noPat : ∀ e, e < k → badCount losses nE e ≠ pat
  bestEpochNone : (∀ j, j < k → ¬ losses j < (nE : ℚ) + 1) → s.bestEpoch = 0
  bestEpochSome : (∃ j, j < k ∧ losses j < (nE : ℚ) + 1) →
    s.bestEpoch < k ∧ losses s.bestEpoch = s.best ∧
    ∀ j, j < s.bestEpoch → s.best < losses j

/-- Facts holding when the loop has finished with `k'` epochs executed. -/
structure LoopFacts (losses : ℕ → ℚ) (nE pat k' : ℕ) (r : TrainState) : Prop where
  epochs : r.epochsRun = k'
  lossVals : r.lossValues = (List.range k').map losses
  savedEq : r.saved = List.range k'
  bestEq : r.best = bestBefore losses nE k'
  filesEx : ∃ b, b ≤ r.bestEpoch ∧
    r.files = (List.range k').filter (fun f => !(f < b)) ∧
    (r.broke = true → 1 ≤ pat → b = r.bestEpoch) ∧
    (r.broke = false → b = r.bestEpoch)
  bestEpochNone : (∀ j, j < k' → ¬ losses j < (nE : ℚ) + 1) → r.bestEpoch = 0
  bestEpochSome : (∃ j, j < k' ∧ losses j < (nE : ℚ) + 1) →
    r.bestEpoch < k' ∧ losses r.bestEpoch = r.best ∧
    ∀ j, j < r.bestEpoch → r.best < losses j
  notBroke : r.broke = false → ∀ e, e < k' → badCount losses nE e ≠ pat
  brokeFacts : r.broke = true → 0 < k' ∧ badCount losses nE (k' - 1) = pat ∧
    ∀ e, e < k' - 1 → badCount losses nE e ≠ pat

/-- Postcondition of the loop started with `bound` epochs remaining. -/
def LoopPost (losses : ℕ → ℚ) (nE pat bound : ℕ) (r : TrainState) : Prop :=
  ∃ k', k' ≤ bound ∧ (r.broke = false → k' = bound) ∧
    LoopFacts losses nE pat k' r

-- (theorems follow)

/-! ## Lemmas about the running best -/

lemma bestBefore_zero (losses : ℕ → ℚ) (nE : ℕ) :
    bestBefore losses nE 0 = (nE : ℚ) + 1 := rfl

lemma bestBefore_succ (losses : ℕ → ℚ) (nE k : ℕ) :
    bestBefore losses nE (k + 1) = min (bestBefore losses nE k) (losses k) := by
  unfold bestBefore
  rw [List.range_succ, List.map_append, List.foldl_append]
  rfl

lemma bestBefore_le_init (losses : ℕ → ℚ) (nE k : ℕ) :
    bestBefore losses nE k ≤ (nE : ℚ) + 1 := by
  induction k with
  | zero => exact le_of_eq (bestBefore_zero losses nE)
  | succ k ih =>
    rw [bestBefore_succ]
    exact le_trans (min_le_left _ _) ih

lemma bestBefore_le (losses : ℕ → ℚ) (nE : ℕ) {k j : ℕ} (h : j < k) :
    bestBefore losses nE k ≤ losses j := by
  induction k with
  | zero => omega
  | succ k ih =>
    rw [bestBefore_succ]
    rcases Nat.lt_succ_iff_lt_or_eq.mp h with h' | h'
    · exact le_trans (min_le_left _ _) (ih h')
    · subst h'; exact min_le_right _ _

lemma bestBefore_of_no_improve (losses : ℕ → ℚ) (nE : ℕ) {k : ℕ}
    (h : ∀ j, j < k → ¬ losses j < (nE : ℚ) + 1) :
    bestBefore losses nE k = (nE : ℚ) + 1 := by
  induction k with
  | zero => rfl
  | succ k ih =>
    rw [bestBefore_succ, ih (fun j hj => h j (Nat.lt_succ_of_lt hj))]
    exact min_eq_left (not_lt.mp (h k (Nat.lt_succ_self k)))

lemma badCount_eq (losses : ℕ → ℚ) (nE k : ℕ) :
    badCount losses nE k =
      if losses k < bestBefore losses nE k then 0
      else (if k = 0 then 0 else badCount losses nE (k - 1)) + 1 := by
  cases k with
  | zero => simp [badCount]
  | succ e => simp [badCount]

/-! ## Lemmas about checkpoint-file bookkeeping -/

lemma range_filter_append {k b : ℕ} (hb : b ≤ k) :
    (List.range k).filter (fun f => !(f < b)) ++ [k]
      = (List.range (k + 1)).filter (fun f => !(f < b)) := by
  rw [List.range_succ, List.filter_append]
  simp [Nat.not_lt.mpr hb]

lemma filter_lt_filter_lt {k bOld bNew : ℕ} (h : bOld ≤ bNew) :
    ((List.range k).filter (fun f => !(f < bOld))).filter
        (fun f => !(f < bNew))
      = (List.range k).filter (fun f => !(f < bNew)) := by
  rw [List.filter_filter]
  apply List.filter_congr
  intro f _
  by_cases hf : f < bNew
  · simp [hf, decide_eq_true_eq]
  · have : ¬ f < bOld := by omega
    simp [hf, this]

lemma range_filter_eq {k b : ℕ} (h : b < k) :
    (List.range k).filter (fun f => decide (f = b)) = [b] := by
  induction k with
  | zero => omega
  | succ m ih =>
    rw [List.range_succ, List.filter_append]
    rcases Nat.lt_succ_iff_lt_or_eq.mp h with h' | h'
    · rw [ih h']
      have hm : m ≠ b := by omega
      simp [hm]
    · subst h'
      have hnil : (List.range b).filter (fun f => decide (f = b)) = [] := by
        apply List.filter_eq_nil_iff.mpr
        intro f hf
        have := List.mem_range.mp hf
        simp
        omega
      simp [hnil]

lemma LoopInv.bestEpoch_le {losses : ℕ → ℚ} {nE pat k : ℕ} {s : TrainState}
    (h : LoopInv losses nE pat k s) : s.bestEpoch ≤ k := by
  by_cases hex : ∃ j, j < k ∧ losses j < (nE : ℚ) + 1
  · exact le_of_lt (h.bestEpochSome hex).1
  · push_neg at hex
    rw [h.bestEpochNone (fun j hj => not_lt.mpr (hex j hj))]
    exact Nat.zero_le k

lemma LoopInv.badCount_k {losses : ℕ → ℚ} {nE pat k : ℕ} {s : TrainState}
    (h : LoopInv losses nE pat k s) :
    badCount losses nE k =
      if losses k < bestBefore losses nE k then 0 else s.badCounter + 1 := by
  rw [badCount_eq, ← h.badEq]

lemma range_filter_between {k b : ℕ} (h : b < k) :
    ((List.range k).filter (fun f => !(f < b))).filter
        (fun f => !(b < f)) = [b] := by
  rw [List.filter_filter]
  have hcongr : ∀ f ∈ List.range k,
      ((!decide (b < f)) && (!decide (f < b))) = decide (f = b) := by
    intro f _
    rcases Nat.lt_trichotomy f b with h' | h' | h'
    · have h1 : ¬ b < f := by omega
      have h2 : ¬ f = b := by omega
      simp [h', h1, h2]
    · simp [h']
    · have h2 : ¬ f = b := by omega
      have h3 : ¬ f < b := by omega
      simp [h', h3, h2]
  rw [List.filter_congr hcongr]
  exact range_filter_eq h

/-! ## One epoch preserves the invariant / produces the break facts -/

lemma epochStep_facts (losses : ℕ → ℚ) (nE pat k : ℕ) (s : TrainState)
    (h : LoopInv losses nE pat k s) :
    ((epochStep losses pat s k).broke = false →
       LoopInv losses nE pat (k + 1) (epochStep losses pat s k)) ∧
    ((epochStep losses pat s k).broke = true →
       badCount losses nE k = pat ∧
       LoopFacts losses nE pat (k + 1) (epochStep losses pat s k)) := by
  have hble := h.bestEpoch_le
  have hlv : s.lossValues ++ [losses k] = (List.range (k + 1)).map losses := by
    rw [h.lossVals, List.range_succ, List.map_append]
    rfl
  have hsv : s.saved ++ [k] = List.range (k + 1) := by
    rw [h.savedEq, List.range_succ]
  unfold epochStep
  split_ifs with himp hpat hpat2
  · -- improvement, and `bad_counter = 0 = patience`: break
    have himp' : losses k < bestBefore losses nE k := h.bestEq ▸ himp
    have hbb1 : bestBefore losses nE (k + 1) = losses k := by
      rw [bestBefore_succ]; exact min_eq_right (le_of_lt himp')
    have hbc0 : badCount losses nE k = 0 := by
      rw [h.badCount_k]; exact if_pos himp'
    have hkinit : losses k < (nE : ℚ) + 1 :=
      lt_of_lt_of_le himp' (bestBefore_le_init losses nE k)
    refine ⟨fun hb => by simp at hb, fun _ => ⟨hbc0.trans hpat, ?_⟩⟩
    refine ⟨h.epochs ▸ rfl, hlv, hsv, hbb1.symm, ?_, ?_, ?_, ?_, ?_⟩
    · exact ⟨s.bestEpoch, hble, by rw [h.filesEq, range_filter_append hble],
        fun _ h1 => absurd (hpat ▸ h1) (by omega), fun hf => by simp at hf⟩
    · exact fun hall => absurd hkinit (hall k (Nat.lt_succ_self k))
    · exact fun _ => ⟨Nat.lt_succ_self k, rfl,
        fun j hj => lt_of_lt_of_le himp' (bestBefore_le losses nE hj)⟩
    · exact fun hf => by simp at hf
    · exact fun _ => ⟨Nat.succ_pos k, by simpa using hbc0.trans hpat,
        fun e he => h.noPat e (by omega)⟩
  · -- improvement, no break: continue with files cleaned to `≥ k`
    have himp' : losses k < bestBefore losses nE k := h.bestEq ▸ himp
    have hbb1 : bestBefore losses nE (k + 1) = losses k := by
      rw [bestBefore_succ]; exact min_eq_right (le_of_lt himp')
    have hbc0 : badCount losses nE k = 0 := by
      rw [h.badCount_k]; exact if_pos himp'
    have hkinit : losses k < (nE : ℚ) + 1 :=
      lt_of_lt_of_le himp' (bestBefore_le_init losses nE k)
    refine ⟨fun _ => ?_, fun hb => by simp at hb⟩
    refine ⟨h.epochs ▸ rfl, rfl, hlv, hsv, ?_, hbb1.symm, by simp [hbc0], ?_, ?_, ?_⟩
    · show (s.files ++ [k]).filter (fun f => !(f < k))
        = (List.range (k + 1)).filter (fun f => !(f < k))
      rw [h.filesEq, List.filter_append, filter_lt_filter_lt hble]
      have hthis : ¬ k < k := lt_irrefl k
      have hsingle : List.filter (fun f => !(f < k)) [k] = [k] := by
        simp [hthis]
      rw [hsingle]
      exact range_filter_append (le_refl k)
    · intro e he
      rcases Nat.lt_succ_iff_lt_or_eq.mp he with he' | he'
      · exact h.noPat e he'
      · subst he'; rw [hbc0]; exact fun hc => hpat hc
    · exact fun hall => absurd hkinit (hall k (Nat.lt_succ_self k))
    · exact fun _ => ⟨Nat.lt_succ_self k, rfl,
        fun j hj => lt_of_lt_of_le himp' (bestBefore_le losses nE hj)⟩
  · -- no improvement, `bad_counter + 1 = patience`: break
    have hnimp' : ¬ losses k < bestBefore losses nE k := h.bestEq ▸ himp
    have hbb2 : bestBefore losses nE (k + 1) = bestBefore losses nE k := by
      rw [bestBefore_succ]; exact min_eq_left (not_lt.mp hnimp')
    have hbc1 : badCount losses nE k = s.badCounter + 1 := by
      rw [h.badCount_k]; exact if_neg hnimp'
    have hsome : (∃ j, j < k + 1 ∧ losses j < (nE : ℚ) + 1) →
        s.bestEpoch < k + 1 ∧ losses s.bestEpoch = s.best ∧
        ∀ j, j < s.bestEpoch → s.best < losses j := by
      intro hex
      have hex' : ∃ j, j < k ∧ losses j < (nE : ℚ) + 1 := by
        by_contra hno
        push_neg at hno
        have hbb3 := bestBefore_of_no_improve losses nE
          (fun j hj => not_lt.mpr (hno j hj))
        rcases hex with ⟨j, hj, hPj⟩
        rcases Nat.lt_succ_iff_lt_or_eq.mp hj with hj' | hj'
        · exact absurd hPj (not_lt.mpr (hno j hj'))
        · subst hj'; exact hnimp' (by rw [hbb3]; exact hPj)
      obtain ⟨hlt, heq, hforall⟩ := h.bestEpochSome hex'
      exact ⟨Nat.lt_succ_of_lt hlt, heq, hforall⟩
    refine ⟨fun hb => by simp at hb, fun _ => ⟨hbc1.trans hpat2, ?_⟩⟩
    refine ⟨h.epochs ▸ rfl, hlv, hsv, hbb2.symm ▸ h.bestEq, ?_, ?_, ?_, ?_, ?_⟩
    · exact ⟨s.bestEpoch, le_refl _, by rw [h.filesEq, range_filter_append hble],
        fun _ _ => rfl, fun hf => by simp at hf⟩
    · exact fun hall => h.bestEpochNone (fun j hj => hall j (Nat.lt_succ_of_lt hj))
    · intro hex
      obtain ⟨h1, h2, h3⟩ := hsome hex
      exact ⟨h1, h2, h3⟩
    · exact fun hf => by simp at hf
    · exact fun _ => ⟨Nat.succ_pos k, by simpa using hbc1.trans hpat2,
        fun e he => h.noPat e (by omega)⟩
  · -- no improvement, no break: continue
    have hnimp' : ¬ losses k < bestBefore losses nE k := h.bestEq ▸ himp
    have hbb2 : bestBefore losses nE (k + 1) = bestBefore losses nE k := by
      rw [bestBefore_succ]; exact min_eq_left (not_lt.mp hnimp')
    have hbc1 : badCount losses nE k = s.badCounter + 1 := by
      rw [h.badCount_k]; exact if_neg hnimp'
    have hsome : (∃ j, j < k + 1 ∧ losses j < (nE : ℚ) + 1) →
        s.bestEpoch < k + 1 ∧ losses s.bestEpoch = s.best ∧
        ∀ j, j < s.bestEpoch → s.best < losses j := by
      intro hex
      have hex' : ∃ j, j < k ∧ losses j < (nE : ℚ) + 1 := by
        by_contra hno
        push_neg at hno
        have hbb3 := bestBefore_of_no_improve losses nE
          (fun j hj => not_lt.mpr (hno j hj))
        rcases hex with ⟨j, hj, hPj⟩
        rcases Nat.lt_succ_iff_lt_or_eq.mp hj with hj' | hj'
        · exact absurd hPj (not_lt.mpr (hno j hj'))
        · subst hj'; exact hnimp' (by rw [hbb3]; exact hPj)
      obtain ⟨hlt, heq, hforall⟩ := h.bestEpochSome hex'
      exact ⟨Nat.lt_succ_of_lt hlt, heq, hforall⟩
    refine ⟨fun _ => ?_, fun hb => by simp at hb⟩
    refine ⟨h.epochs ▸ rfl, rfl, hlv, hsv, ?_, hbb2.symm ▸ h.bestEq,
      by simp [hbc1], ?_, ?_, hsome⟩
    · show (s.files ++ [k]).filter (fun f => !(f < s.bestEpoch))
        = (List.range (k + 1)).filter (fun f => !(f < s.bestEpoch))
      rw [h.filesEq, List.filter_append, filter_lt_filter_lt (le_refl _)]
      have hthis : ¬ k < s.bestEpoch := by omega
      have hsingle : List.filter (fun f => !(f < s.bestEpoch)) [k] = [k] := by
        simp [hthis]
      rw [hsingle]
      exact range_filter_append hble
    · intro e he
      rcases Nat.lt_succ_iff_lt_or_eq.mp he with he' | he'
      · exact h.noPat e he'
      · subst he'; rw [hbc1]; exact fun hc => hpat2 hc
    · exact fun hall => h.bestEpochNone (fun j hj => hall j (Nat.lt_succ_of_lt hj))

lemma LoopInv.toFacts {losses : ℕ → ℚ} {nE pat k : ℕ} {s : TrainState}
    (h : LoopInv losses nE pat k s) : LoopFacts losses nE pat k s :=
  ⟨h.epochs, h.lossVals, h.savedEq, h.bestEq,
   ⟨s.bestEpoch, le_refl _, h.filesEq,
    fun hb => absurd (h.brokeFalse.symm.trans hb) Bool.false_ne_true,
    fun _ => rfl⟩,
   h.bestEpochNone, h.bestEpochSome, fun _ => h.noPat,
   fun hb => absurd (h.brokeFalse.symm.trans hb) Bool.false_ne_true⟩

lemma loopFrom_post (losses : ℕ → ℚ) (nE pat : ℕ) :
    ∀ (m k : ℕ) (s : TrainState), LoopInv losses nE pat k s →
      LoopPost losses nE pat (k + m) (loopFrom losses pat m k s) := by
  intro m
  induction m with
  | zero =>
    intro k s h
    exact ⟨k, by omega, fun _ => by omega, h.toFacts⟩
  | succ m ih =>
    intro k s h
    have hstep := epochStep_facts losses nE pat k s h
    simp only [loopFrom]
    by_cases hbr : (epochStep losses pat s k).broke = true
    · rw [if_pos hbr]
      refine ⟨k + 1, by omega, fun hf => absurd (hf ▸ hbr) (by simp), ?_⟩
      exact (hstep.2 hbr).2
    · rw [if_neg hbr]
      have hinv := hstep.1 (Bool.eq_false_iff.mpr hbr)
      have := ih (k + 1) (epochStep losses pat s k) hinv
      have harith : k + 1 + m = k + (m + 1) := by omega
      rw [harith] at this
      exact this

lemma initState_inv (losses : ℕ → ℚ) (nE pat : ℕ) :
    LoopInv losses nE pat 0 (initState nE) := by
  refine ⟨rfl, rfl, rfl, rfl, rfl, rfl, rfl, ?_, fun _ => rfl, ?_⟩
  · intro e he; omega
  · rintro ⟨j, hj, _⟩; omega

/-- The postcondition of the whole loop. -/
lemma runLoop_post (losses : ℕ → ℚ) (nE pat : ℕ) :
    LoopPost losses nE pat nE (runLoop losses nE pat) := by
  have := loopFrom_post losses nE pat nE 0 (initState nE)
    (initState_inv losses nE pat)
  simpa [runLoop] using this

/-! ## Claims C1, C2, C5 -/

/-- Claim C1: after the epoch loop terminates, the script loads the state
dict saved at `best_epoch`, and `best_epoch` is the first epoch attaining
the lowest recorded loss in `loss_values`: its loss is at most every
recorded loss and strictly below the loss of every earlier epoch
(assuming, as the initialisation `best = nEpochs + 1` requires, that some
recorded loss is below `nEpochs + 1`). -/
theorem c1_restores_lowest_loss_epoch (losses : ℕ → ℚ) (nE pat : ℕ)
    (h : ∃ i, i < (runLoop losses nE pat).epochsRun ∧
      losses i < (nE : ℚ) + 1) :
    restoredEpoch (runLoop losses nE pat) = (runLoop losses nE pat).bestEpoch ∧
    (runLoop losses nE pat).lossValues
      = (List.range (runLoop losses nE pat).epochsRun).map losses ∧
    (runLoop losses nE pat).bestEpoch < (runLoop losses nE pat).epochsRun ∧
    (∀ j, j < (runLoop losses nE pat).epochsRun →
      losses (runLoop losses nE pat).bestEpoch ≤ losses j) ∧
    (∀ j, j < (runLoop losses nE pat).bestEpoch →
      losses (runLoop losses nE pat).bestEpoch < losses j) := by
  obtain ⟨k', hk', hnb, hf⟩ := runLoop_post losses nE pat
  rw [hf.epochs] at h ⊢
  rw [hf.lossVals]
  obtain ⟨hlt, heq, hfor⟩ := hf.bestEpochSome h
  refine ⟨rfl, rfl, hlt, ?_, ?_⟩
  · intro j hj
    rw [heq, hf.bestEq]
    exact bestBefore_le losses nE hj
  · intro j hj
    rw [heq]
    exact hfor j hj

/-- Witness for C1 at `wLosses = [2, 0, 2]`, `nEpochs = 3`,
`patience = 5`: the run records all three losses and restores epoch 1,
the first epoch with the lowest recorded loss. -/
theorem c1_witness :
    restoredEpoch (runLoop wLosses 3 5) = (runLoop wLosses 3 5).bestEpoch ∧
    (runLoop wLosses 3 5).lossValues
      = (List.range (runLoop wLosses 3 5).epochsRun).map wLosses ∧
    (runLoop wLosses 3 5).bestEpoch < (runLoop wLosses 3 5).epochsRun ∧
    (∀ j, j < (runLoop wLosses 3 5).epochsRun →
      wLosses (runLoop wLosses 3 5).bestEpoch ≤ wLosses j) ∧
    (∀ j, j < (runLoop wLosses 3 5).bestEpoch →
      wLosses (runLoop wLosses 3 5).bestEpoch < wLosses j) :=
  c1_restores_lowest_loss_epoch wLosses 3 5
    ⟨1, by norm_num [runLoop, loopFrom, epochStep, initState, wLosses],
     by norm_num [wLosses]⟩

/-- Claim C2: the epoch loop executes at most `nEpochs` epochs; the
`break` fires exactly when `bad_counter` first reaches `patience` (the
per-epoch loss having failed to strictly improve on the best seen so
far, whose initial value is `nEpochs + 1`) at some scheduled epoch; and
fewer than `nEpochs` epochs execute exactly when that happens with at
least one scheduled epoch still remaining. -/
theorem c2_early_stopping (losses : ℕ → ℚ) (nE pat : ℕ) :
    (runLoop losses nE pat).epochsRun ≤ nE ∧
    ((runLoop losses nE pat).broke = true ↔
      ∃ e, e < nE ∧ badCount losses nE e = pat ∧
        ∀ e', e' < e → badCount losses nE e' ≠ pat) ∧
    ((runLoop losses nE pat).epochsRun < nE ↔
      ∃ e, e + 1 < nE ∧ badCount losses nE e = pat ∧
        ∀ e', e' < e → badCount losses nE e' ≠ pat) := by
  obtain ⟨k', hk', hnb, hf⟩ := runLoop_post losses nE pat
  rw [hf.epochs]
  refine ⟨hk', ⟨?_, ?_⟩, ?_, ?_⟩
  · intro hbr
    obtain ⟨hpos, hbad, hmin⟩ := hf.brokeFacts hbr
    exact ⟨k' - 1, by omega, hbad, hmin⟩
  · rintro ⟨e, he1, he2, hmin⟩
    cases hbr : (runLoop losses nE pat).broke
    · have hkE : k' = nE := hnb hbr
      exact absurd he2 (hf.notBroke hbr e (by omega))
    · rfl
  · intro hlt
    cases hbr : (runLoop losses nE pat).broke
    · exact absurd (hnb hbr) (by omega)
    · obtain ⟨hpos, hbad, hmin⟩ := hf.brokeFacts hbr
      exact ⟨k' - 1, by omega, hbad, hmin⟩
  · rintro ⟨e, he1, he2, hmin⟩
    by_contra hge
    have hkE : k' = nE := by omega
    cases hbr : (runLoop losses nE pat).broke
    · exact hf.notBroke hbr e (by omega) he2
    · obtain ⟨hpos, hbad, hmin'⟩ := hf.brokeFacts hbr
      rcases lt_trichotomy e (k' - 1) with hc | hc | hc
      · exact hmin' e hc he2
      · omega
      · exact hmin (k' - 1) hc hbad

/-- Claim C5 counterexample: with `patience = 0`, `nEpochs = 2` and
losses `[5, 1]`, the loop improves at epoch 1 and breaks immediately
(`bad_counter = 0 = patience`), skipping the in-loop cleanup, so the
stale checkpoint of epoch 0 — below `best_epoch = 1` — is never removed:
after the post-loop cleanup both files remain, contradicting the claim
that the `best_epoch` file is the only remaining checkpoint. -/
theorem c5_counterexample :
    (runLoop cexLosses 2 0).bestEpoch = 1 ∧
    finalFiles (runLoop cexLosses 2 0) = [0, 1] ∧
    finalFiles (runLoop cexLosses 2 0)
      ≠ [(runLoop cexLosses 2 0).bestEpoch] := by
  refine ⟨?_, ?_, ?_⟩ <;>
    norm_num [runLoop, loopFrom, epochStep, initState, cexLosses, finalFiles]

/-- Claim C5 (amended: for runs with `patience ≥ 1` and at least one
epoch): exactly one checkpoint is written per completed epoch, and after
the loop and the post-loop cleanup the `best_epoch` checkpoint exists and
is the only remaining one. -/
theorem c5_checkpoint_discipline (losses : ℕ → ℚ) (nE pat : ℕ)
    (hnE : 1 ≤ nE) (hpat : 1 ≤ pat) :
    (runLoop losses nE pat).saved
      = List.range (runLoop losses nE pat).epochsRun ∧
    finalFiles (runLoop losses nE pat)
      = [(runLoop losses nE pat).bestEpoch] := by
  obtain ⟨k', hk', hnb, hf⟩ := runLoop_post losses nE pat
  have hpos : 0 < k' := by
    cases hbr : (runLoop losses nE pat).broke
    · have := hnb hbr; omega
    · exact (hf.brokeFacts hbr).1
  have hbe : (runLoop losses nE pat).bestEpoch < k' := by
    by_cases hex : ∃ j, j < k' ∧ losses j < (nE : ℚ) + 1
    · exact (hf.bestEpochSome hex).1
    · push_neg at hex
      rw [hf.bestEpochNone (fun j hj => not_lt.mpr (hex j hj))]
      exact hpos
  obtain ⟨b, hble, hfiles, hbt, hbf⟩ := hf.filesEx
  have hbeq : b = (runLoop losses nE pat).bestEpoch := by
    cases hbr : (runLoop losses nE pat).broke
    · exact hbf hbr
    · exact hbt hbr hpat
  refine ⟨by rw [hf.epochs, hf.savedEq], ?_⟩
  unfold finalFiles
  rw [hfiles, hbeq]
  exact range_filter_between hbe

/-- Witness for C5 (amended) at `cexLosses`, `nEpochs = 2`,
`patience = 1`: the run breaks after epoch 0 and keeps exactly the
epoch-0 checkpoint. -/
theorem c5_witness :
    (runLoop cexLosses 2 1).saved
      = List.range (runLoop cexLosses 2 1).epochsRun ∧
    finalFiles (runLoop cexLosses 2 1)
      = [(runLoop cexLosses 2 1).bestEpoch] :=
  c5_checkpoint_discipline cexLosses 2 1 (by decide) (by decide)

/-! ## Claims C9, C10: loss and accuracy -/

lemma sum_map_boolToQ (mask : List Bool) :
    (mask.map boolToQ).sum = (mask.count true : ℚ) := by
  induction mask with
  | nil => simp
  | cons b m ih =>
    cases b
    · simp [boolToQ, ih, List.count_cons]
    · simp only [List.map_cons, List.sum_cons, boolToQ, if_true, ih,
        List.count_cons, beq_self_eq_true]
      push_cast
      ring

lemma zipWith_mul_map_div_sum (as bs : List ℚ) (c : ℚ) :
    (List.zipWith (fun a b => a * b) as (bs.map (fun m => m / c))).sum
      = (List.zipWith (fun a b => a * b) as bs).sum / c := by
  induction as generalizing bs with
  | nil => simp
  | cons a as ih =>
    cases bs with
    | nil => simp
    | cons b bs =>
      simp only [List.map_cons, List.zipWith_cons_cons, List.sum_cons, ih]
      rw [← mul_div_assoc, div_add_div_same]

lemma zipWith_mul_mask_sum (loss : List ℚ) (mask : List Bool) :
    (List.zipWith (fun a b => a * b) loss (mask.map boolToQ)).sum
      = (List.zipWith (fun l b => if b then l else (0 : ℚ)) loss mask).sum := by
  induction loss generalizing mask with
  | nil => simp
  | cons a as ih =>
    cases mask with
    | nil => simp
    | cons b m =>
      cases b <;> simp [boolToQ, ih]

/-- Claim C9: for matching lengths and a non-empty mask,
`masked_nll_loss` equals the sum of the per-node negative
log-likelihoods over the masked nodes divided by the number of masked
nodes — the renormalisation `mask / (mask.sum() / n)` and the final
division by `n` cancel exactly. -/
theorem c9_masked_nll_loss_is_masked_mean (logits : List (List ℚ))
    (labels : List ℕ) (mask : List Bool)
    (hlab : labels.length = logits.length)
    (hmask : mask.length = logits.length)
    (hpos : 0 < mask.count true) :
    masked_nll_loss logits labels mask
      = (List.zipWith (fun l b => if b then l else (0 : ℚ))
          (nllLossNone logits labels) mask).sum / (mask.count true : ℚ) := by
  have hlosslen : (nllLossNone logits labels).length = logits.length := by
    simp [nllLossNone, hlab]
  have hcount_le : mask.count true ≤ mask.length := List.count_le_length true mask
  have hn : (0 : ℚ) < (logits.length : ℚ) := by
    have : 0 < logits.length := by omega
    exact_mod_cast this
  have hc : (0 : ℚ) < (mask.count true : ℚ) := by exact_mod_cast hpos
  have hlen1 : (mask.map boolToQ).length = logits.length := by simp [hmask]
  unfold masked_nll_loss
  simp only
  have hlen2 : (List.zipWith (fun a b => a * b) (nllLossNone logits labels)
      ((mask.map boolToQ).map (fun m =>
        m / ((mask.map boolToQ).sum / ((mask.map boolToQ).length : ℚ))))).length
      = logits.length := by
    simp [hlosslen, hmask]
  rw [hlen2]
  rw [zipWith_mul_map_div_sum]
  rw [zipWith_mul_mask_sum]
  rw [sum_map_boolToQ]
  rw [hlen1]
  rw [div_div_eq_mul_div, div_div,
    mul_comm ((mask.count true : ℚ)) ((logits.length : ℚ)), ← div_div,
    mul_div_cancel_right₀ _ (ne_of_gt hn)]

/-- Witness for C9 on a 2-node example: logits `[[-1,-3],[-2,-5]]`,
labels `[0,1]`, mask `[true,false]` — the masked mean is `1/1 = 1`. -/
theorem c9_witness :
    masked_nll_loss [[-1, -3], [-2, -5]] [0, 1] [true, false]
      = (List.zipWith (fun l b => if b then l else (0 : ℚ))
          (nllLossNone [[-1, -3], [-2, -5]] [0, 1]) [true, false]).sum
        / (([true, false].count true : ℕ) : ℚ) :=
  c9_masked_nll_loss_is_masked_mean [[-1, -3], [-2, -5]] [0, 1] [true, false]
    rfl rfl (by decide)

lemma zipWith_if_sum_eq_count (output : List (List ℚ)) (labels : List ℕ) :
    (List.zipWith (fun r l => if idxOfMax r = l then (1 : ℚ) else 0)
      output labels).sum
      = ((List.zipWith (fun r l => decide (idxOfMax r = l))
          output labels).count true : ℚ) := by
  induction output generalizing labels with
  | nil => simp
  | cons r rows ih =>
    cases labels with
    | nil => simp
    | cons l ls =>
      by_cases h : idxOfMax r = l
      · simp only [List.zipWith_cons_cons, h, if_true, List.sum_cons, ih,
          List.count_cons]
        norm_num
        ring
      · simp [h, ih, List.count_cons]

lemma zipWith_mul_one (l : List ℚ) (n : ℕ) (h : l.length ≤ n) :
    List.zipWith (fun a b => a * b) l (List.replicate n (1 : ℚ)) = l := by
  induction l generalizing n with
  | nil => simp
  | cons a as ih =>
    cases n with
    | zero => exact absurd h (by simp)
    | succ m =>
      simp only [List.replicate_succ, List.zipWith_cons_cons, mul_one]
      rw [ih m (by simpa using h)]

/-- Claim C10: `masked_accuracy` with an all-ones mask coincides with
`accuracy`, and both equal the fraction of rows whose argmax prediction
equals the corresponding label. -/
theorem c10_masked_accuracy_generalises (output : List (List ℚ))
    (labels : List ℕ) (h : output.length = labels.length) :
    masked_accuracy output labels (List.replicate labels.length true)
      = accuracy output labels ∧
    accuracy output labels
      = ((List.zipWith (fun r l => decide (idxOfMax r = l))
          output labels).count true : ℚ) / (labels.length : ℚ) := by
  constructor
  · unfold masked_accuracy accuracy
    simp only [List.map_replicate]
    have hb1 : boolToQ true = 1 := rfl
    rw [hb1]
    have hlen : (List.zipWith (fun r l => if idxOfMax r = l then (1 : ℚ) else 0)
        output labels).length ≤ labels.length := by
      simp [h]
    rw [zipWith_mul_one _ _ hlen]
    congr 1
    rw [List.sum_replicate]
    simp
  · unfold accuracy
    rw [zipWith_if_sum_eq_count]

/-- Witness for C10 on a 2-row example: predictions `[0, 0]`, labels
`[0, 1]`, accuracy `1/2`. -/
theorem c10_witness :
    masked_accuracy [[2, 1], [3, 0]] [0, 1]
        (List.replicate ([0, 1] : List ℕ).length true)
      = accuracy [[2, 1], [3, 0]] [0, 1] ∧
    accuracy [[2, 1], [3, 0]] [0, 1]
      = ((List.zipWith (fun r l => decide (idxOfMax r = l))
          [[2, 1], [3, 0]] [0, 1]).count true : ℚ) / ((([0, 1] : List ℕ).length : ℕ) : ℚ) :=
  c10_masked_accuracy_generalises [[2, 1], [3, 0]] [0, 1] rfl

/-! ## Claim C3: ClusterLoader.collate preserves inter-cluster edges -/

lemma mem_narrowRows {A : SparseT} {s l r c : ℕ} {v : ℚ} :
    (r, c, v) ∈ (A.narrowRows s l).entries ↔
      r < l ∧ (s + r, c, v) ∈ A.entries := by
  unfold SparseT.narrowRows
  simp only [List.mem_filterMap]
  constructor
  · rintro ⟨⟨a, b, w⟩, hm, hf⟩
    by_cases hcond : s ≤ a ∧ a < s + l
    · rw [if_pos hcond] at hf
      injection hf with hf
      injection hf with hf1 hf2
      injection hf2 with hf2 hf3
      subst hf1; subst hf2; subst hf3
      constructor
      · omega
      · have : s + (a - s) = a := by omega
        rw [this]; exact hm
    · rw [if_neg hcond] at hf
      exact absurd hf (by simp)
  · rintro ⟨hrl, hm⟩
    refine ⟨(s + r, c, v), hm, ?_⟩
    have hcond : s ≤ s + r ∧ s + r < s + l := by omega
    rw [if_pos hcond]
    have : s + r - s = r := by omega
    rw [this]
  
lemma mem_t {A : SparseT} {r c : ℕ} {v : ℚ} :
    (r, c, v) ∈ A.t.entries ↔ (c, r, v) ∈ A.entries := by
  unfold SparseT.t
  simp only [List.mem_map]
  constructor
  · rintro ⟨⟨a, b, w⟩, hm, hf⟩
    injection hf with hf1 hf2
    injection hf2 with hf2 hf3
    subst hf1; subst hf2; subst hf3
    exact hm
  · intro hm
    exact ⟨(c, r, v), hm, rfl⟩

lemma mem_catRows {A B : SparseT} {r c : ℕ} {v : ℚ} :
    (r, c, v) ∈ (A.catRows B).entries ↔
      (r, c, v) ∈ A.entries ∨
      ∃ r', r = r' + A.nrows ∧ (r', c, v) ∈ B.entries := by
  unfold SparseT.catRows
  simp only [List.mem_append, List.mem_map]
  constructor
  · rintro (hm | ⟨⟨a, b, w⟩, hm, hf⟩)
    · exact Or.inl hm
    · injection hf with hf1 hf2
      injection hf2 with hf2 hf3
      subst hf2; subst hf3
      exact Or.inr ⟨a, hf1.symm, hm⟩
  · rintro (hm | ⟨r', hr, hm⟩)
    · exact Or.inl hm
    · exact Or.inr ⟨(r', c, v), hm, by rw [hr]⟩

lemma narrowRows_nrows (A : SparseT) (s l : ℕ) : (A.narrowRows s l).nrows = l := rfl

lemma narrowRows_ncols (A : SparseT) (s l : ℕ) :
    (A.narrowRows s l).ncols = A.ncols := rfl

lemma catRowsList_nrows (l : List SparseT) :
    (catRowsList l).nrows = (l.map SparseT.nrows).sum := by
  induction l with
  | nil => rfl
  | cons A rest ih => simp [catRowsList, SparseT.catRows, ih]

lemma mem_catRowsList_narrow (B : SparseT) (partptr : List ℕ) :
    ∀ (parts : List ℕ) (r c : ℕ) (v : ℚ),
      ((r, c, v) ∈ (catRowsList (parts.map (fun p =>
          B.narrowRows (partStart partptr p) (partLen partptr p)))).entries ↔
        ∃ g, globalIdx partptr parts r = some g ∧ (g, c, v) ∈ B.entries) := by
  intro parts
  induction parts with
  | nil => intro r c v; simp [catRowsList, globalIdx]
  | cons p ps ih =>
    intro r c v
    simp only [List.map_cons, catRowsList]
    rw [mem_catRows]
    rw [mem_narrowRows]
    rw [narrowRows_nrows]
    constructor
    · rintro (⟨hr, hm⟩ | ⟨r', hr, hm⟩)
      · refine ⟨partStart partptr p + r, ?_, hm⟩
        simp [globalIdx, hr]
      · obtain ⟨g, hg, hB⟩ := (ih r' c v).1 hm
        refine ⟨g, ?_, hB⟩
        have hge : ¬ r < partLen partptr p := by omega
        simp only [globalIdx, if_neg hge]
        have : r - partLen partptr p = r' := by omega
        rw [this]
        exact hg
    · rintro ⟨g, hg, hB⟩
      by_cases hr : r < partLen partptr p
      · left
        simp only [globalIdx, if_pos hr] at hg
        injection hg with hg
        exact ⟨hr, hg ▸ hB⟩
      · right
        simp only [globalIdx, if_neg hr] at hg
        refine ⟨r - partLen partptr p, by omega, ?_⟩
        exact (ih (r - partLen partptr p) c v).2 ⟨g, hg, hB⟩

/-- Claim C3: the `Data` object returned by `ClusterLoader.collate` for a
batch of cluster indices `parts` has `num_nodes` equal to the total size
of the cluster node ranges of the batch, and its edges are exactly the edges
of the full permuted graph between nodes of the batch, re-indexed by the
concatenation order of the parts: `(i, j, v)` is an edge of the batch iff
batch positions `i, j` correspond to global nodes `gi, gj` (both inside
the union of the selected ranges) and `(gi, gj, v)` is an edge of the
full graph.  In particular edges between two different clusters of the
batch are kept, and no edge to a node outside the batch is kept. -/
theorem c3_collate_induced_subgraph (A : SparseT) (partptr parts : List ℕ) :
    collateNumNodes A partptr parts = (parts.map (partLen partptr)).sum ∧
    ∀ (i j : ℕ) (v : ℚ),
      ((i, j, v) ∈ (collateAdj A partptr parts).entries ↔
        ∃ gi gj, globalIdx partptr parts i = some gi ∧
          globalIdx partptr parts j = some gj ∧ (gi, gj, v) ∈ A.entries) := by
  constructor
  · unfold collateNumNodes collateAdj
    cases parts with
    | nil => rfl
    | cons p ps =>
      show (catRowsList ((p :: ps).map (helperItemAdj A partptr))).nrows
        = ((p :: ps).map (partLen partptr)).sum
      rw [catRowsList_nrows, List.map_map]
      rfl
  · intro i j v
    unfold collateAdj
    simp only
    rw [mem_t]
    have h2 := mem_catRowsList_narrow
      ((catRowsList (parts.map (helperItemAdj A partptr))).t) partptr parts j i v
    rw [h2]
    constructor
    · rintro ⟨gj, hgj, hm⟩
      rw [mem_t] at hm
      have h1 := mem_catRowsList_narrow A partptr parts i gj v
      rw [show (fun p => A.narrowRows (partStart partptr p) (partLen partptr p))
          = helperItemAdj A partptr from rfl] at h1
      obtain ⟨gi, hgi, hA⟩ := h1.1 hm
      exact ⟨gi, gj, hgi, hgj, hA⟩
    · rintro ⟨gi, gj, hgi, hgj, hA⟩
      refine ⟨gj, hgj, ?_⟩
      rw [mem_t]
      have h1 := mem_catRowsList_narrow A partptr parts i gj v
      rw [show (fun p => A.narrowRows (partStart partptr p) (partLen partptr p))
          = helperItemAdj A partptr from rfl] at h1
      exact h1.2 ⟨gi, hgi, hA⟩

/-! ## Claim C4: ClusterData splits the node range -/

lemma chain_le_getD :
    ∀ (ys : List ℕ) (y : ℕ), List.Chain' (· ≤ ·) (y :: ys) →
      ∀ m, m < (y :: ys).length → y ≤ (y :: ys).getD m 0 := by
  intro ys
  induction ys with
  | nil =>
    intro y _ m hm
    have hm0 : m = 0 := by simp at hm; omega
    subst hm0
    simp
  | cons z zs ih =>
    intro y hchain m hm
    obtain ⟨hyz, hchain'⟩ := List.chain'_cons.mp hchain
    cases m with
    | zero => simp
    | succ m' =>
      rw [List.getD_cons_succ]
      exact le_trans hyz (ih z hchain' m' (by simpa using hm))

lemma chain_getLast_le :
    ∀ (p : List ℕ) (b : ℕ), List.Chain' (· ≤ ·) p → p.getLast? = some b →
      ∀ i, i < p.length → p.getD i 0 ≤ b := by
  intro p
  induction p with
  | nil => intro b _ hlast; cases hlast
  | cons x xs ih =>
    intro b hchain hlast i hi
    cases xs with
    | nil =>
      have hi0 : i = 0 := by simp at hi; omega
      subst hi0
      simp at hlast ⊢
      omega
    | cons y ys =>
      rw [List.getLast?_cons_cons] at hlast
      obtain ⟨hxy, hchain'⟩ := List.chain'_cons.mp hchain
      cases i with
      | zero =>
        rw [List.getD_cons_zero]
        exact le_trans hxy (ih b hchain' hlast 0 (by simp))
      | succ i' =>
        rw [List.getD_cons_succ]
        exact ih b hchain' hlast i' (by simpa using hi)

lemma chain_getD_le_succ :
    ∀ (p : List ℕ), List.Chain' (· ≤ ·) p →
      ∀ i, i + 1 < p.length → p.getD i 0 ≤ p.getD (i + 1) 0 := by
  intro p
  induction p with
  | nil => intro _ i hi; simp at hi
  | cons x xs ih =>
    intro hchain i hi
    cases xs with
    | nil => simp at hi
    | cons y ys =>
      obtain ⟨hxy, hchain'⟩ := List.chain'_cons.mp hchain
      cases i with
      | zero => simpa using hxy
      | succ i' =>
        rw [List.getD_cons_succ, List.getD_cons_succ]
        exact ih hchain' i' (by simpa using hi)

lemma part_exists_unique :
    ∀ (p : List ℕ) (a b n : ℕ), List.Chain' (· ≤ ·) p →
      p.head? = some a → p.getLast? = some b → a ≤ n → n < b →
      ∃! i, i + 1 < p.length ∧ p.getD i 0 ≤ n ∧ n < p.getD (i + 1) 0 := by
  intro p
  induction p with
  | nil => intro a b n _ hhead; cases hhead
  | cons x xs ih =>
    intro a b n hchain hhead hlast han hnb
    have hxa : x = a := by injection hhead
    subst hxa
    cases xs with
    | nil =>
      simp at hlast
      omega
    | cons y ys =>
      rw [List.getLast?_cons_cons] at hlast
      obtain ⟨hxy, hchain'⟩ := List.chain'_cons.mp hchain
      by_cases hy : n < y
      · refine ⟨0, ⟨by simp, by simpa using han, by simpa using hy⟩, ?_⟩
        rintro i' ⟨hi'L, hi'1, hi'2⟩
        cases i' with
        | zero => rfl
        | succ m =>
          rw [List.getD_cons_succ] at hi'1
          have hym : y ≤ (y :: ys).getD m 0 :=
            chain_le_getD ys y hchain' m
              (by simp only [List.length_cons] at hi'L ⊢; omega)
          omega
      · obtain ⟨i, ⟨hiL, hi1, hi2⟩, huniq⟩ :=
          ih y b n hchain' rfl hlast (le_of_not_lt hy) hnb
        refine ⟨i + 1, ⟨by simpa using hiL, by simpa using hi1,
          by simpa using hi2⟩, ?_⟩
        rintro i' ⟨hi'L, hi'1, hi'2⟩
        cases i' with
        | zero =>
          simp only [List.getD_cons_succ, List.getD_cons_zero] at hi'2
          omega
        | succ m =>
          have := huniq m ⟨by simp only [List.length_cons] at hi'L ⊢; omega,
            by simpa using hi'1, by simpa using hi'2⟩
          omega

/-- Claim C4: with a partition pointer that is monotone from 0 to the
number of nodes `N`, `len(ClusterData)` is `partptr.numel() - 1`; part
`idx` narrows every node-level attribute of length `N` to the contiguous
range `[partptr[idx], partptr[idx+1])` (same length, entry `j` of the
part is entry `partptr[idx] + j` of the full attribute); and every node
lies in the range of exactly one part — the ranges are pairwise disjoint
and cover all nodes. -/
theorem c4_clusterdata_partition (partptr : List ℕ) (N : ℕ)
    (hchain : List.Chain' (· ≤ ·) partptr)
    (hhead : partptr.head? = some 0)
    (hlast : partptr.getLast? = some N) :
    clusterLen partptr = partptr.length - 1 ∧
    (∀ (α : Type) (attr : List α) (idx : ℕ), idx < clusterLen partptr →
      attr.length = N →
      (clusterGetItemAttr partptr idx attr).length = partLen partptr idx ∧
      ∀ j, j < partLen partptr idx →
        (clusterGetItemAttr partptr idx attr).get? j
          = attr.get? (partStart partptr idx + j)) ∧
    (∀ n, n < N → ∃! i, i < clusterLen partptr ∧
      partStart partptr i ≤ n ∧ n < partptr.getD (i + 1) 0) := by
  have hlen1 : 1 ≤ partptr.length := by
    cases partptr
    · cases hhead
    · simp
  refine ⟨rfl, ?_, ?_⟩
  · intro α attr idx hidx hlen
    have hidx' : idx + 1 < partptr.length := by
      unfold clusterLen at hidx; omega
    have hup : partptr.getD (idx + 1) 0 ≤ N :=
      chain_getLast_le partptr N hchain hlast (idx + 1) hidx'
    have hadj : partptr.getD idx 0 ≤ partptr.getD (idx + 1) 0 :=
      chain_getD_le_succ partptr hchain idx hidx'
    constructor
    · unfold clusterGetItemAttr partLen partStart
      rw [List.length_take, List.length_drop, hlen]
      omega
    · intro j hj
      unfold clusterGetItemAttr
      rw [List.get?_take hj, List.get?_drop]
  · intro n hn
    have h := part_exists_unique partptr 0 N n hchain hhead hlast
      (Nat.zero_le n) hn
    obtain ⟨i, ⟨hiL, hi1, hi2⟩, huniq⟩ := h
    refine ⟨i, ⟨by unfold clusterLen; omega, hi1, hi2⟩, ?_⟩
    rintro i' ⟨hi'L, hi'1, hi'2⟩
    exact huniq i' ⟨by unfold clusterLen at hi'L; omega, hi'1, hi'2⟩

/-- Witness for C4 at `partptr = [0, 2, 5]`, `N = 5`: two parts, ranges
`[0,2)` and `[2,5)`. -/
theorem c4_witness :
    clusterLen [0, 2, 5] = ([0, 2, 5] : List ℕ).length - 1 ∧
    (∀ (α : Type) (attr : List α) (idx : ℕ), idx < clusterLen [0, 2, 5] →
      attr.length = 5 →
      (clusterGetItemAttr [0, 2, 5] idx attr).length = partLen [0, 2, 5] idx ∧
      ∀ j, j < partLen [0, 2, 5] idx →
        (clusterGetItemAttr [0, 2, 5] idx attr).get? j
          = attr.get? (partStart [0, 2, 5] idx + j)) ∧
    (∀ n, n < 5 → ∃! i, i < clusterLen [0, 2, 5] ∧
      partStart [0, 2, 5] i ≤ n ∧ n < ([0, 2, 5] : List ℕ).getD (i + 1) 0) :=
  c4_clusterdata_partition [0, 2, 5] 5 (by simp) rfl rfl

/-! ## Claim C7: the split masks -/

lemma makeMask_getD (n i : ℕ) (idx : List ℕ) (h : i < n) :
    (makeMask n idx).getD i false = idx.contains i := by
  unfold makeMask
  rw [List.getD_eq_getElem?_getD, List.getElem?_map, List.getElem?_range h]
  rfl

lemma contains_iff (idx : List ℕ) (i : ℕ) :
    idx.contains i = true ↔ i ∈ idx := by
  simp [List.contains]

/-- Claim C7: given that the two applications of `train_test_split`
partition `range(N)` into train and the rest, and the rest into test and
validation, the three boolean masks built on lines 244-250 have length
`N`, entry `i` of each mask is true exactly when node `i` is in the
corresponding index list, and each node is selected by exactly one of
the three masks (pairwise disjointness plus cover). -/
theorem c7_masks_partition (n : ℕ) (idxTrain idxTmp idxTest idxVal : List ℕ)
    (hdisj1 : ∀ i, i ∈ idxTrain → i ∉ idxTmp)
    (hcover1 : ∀ i, i < n ↔ (i ∈ idxTrain ∨ i ∈ idxTmp))
    (hdisj2 : ∀ i, i ∈ idxTest → i ∉ idxVal)
    (hcover2 : ∀ i, i ∈ idxTmp ↔ (i ∈ idxTest ∨ i ∈ idxVal)) :
    (makeMask n idxTrain).length = n ∧
    (makeMask n idxVal).length = n ∧
    (makeMask n idxTest).length = n ∧
    (∀ i, i < n →
      ((makeMask n idxTrain).getD i false = true ↔ i ∈ idxTrain) ∧
      ((makeMask n idxVal).getD i false = true ↔ i ∈ idxVal) ∧
      ((makeMask n idxTest).getD i false = true ↔ i ∈ idxTest)) ∧
    (∀ i, i < n →
      ExactlyOne ((makeMask n idxTrain).getD i false = true)
        ((makeMask n idxVal).getD i false = true)
        ((makeMask n idxTest).getD i false = true)) := by
  refine ⟨by simp [makeMask], by simp [makeMask], by simp [makeMask], ?_, ?_⟩
  · intro i hi
    rw [makeMask_getD n i idxTrain hi, makeMask_getD n i idxVal hi,
      makeMask_getD n i idxTest hi]
    exact ⟨contains_iff _ _, contains_iff _ _, contains_iff _ _⟩
  · intro i hi
    unfold ExactlyOne
    rw [makeMask_getD n i idxTrain hi, makeMask_getD n i idxVal hi,
      makeMask_getD n i idxTest hi, contains_iff, contains_iff, contains_iff]
    rcases (hcover1 i).mp hi with htr | htmp
    · left
      have htmp' : i ∉ idxTmp := hdisj1 i htr
      exact ⟨htr, fun hv => htmp' ((hcover2 i).mpr (Or.inr hv)),
        fun ht => htmp' ((hcover2 i).mpr (Or.inl ht))⟩
    · have htr' : i ∉ idxTrain := fun htr => hdisj1 i htr htmp
      rcases (hcover2 i).mp htmp with hte | hva
      · right; right
        exact ⟨htr', hdisj2 i hte, hte⟩
      · right; left
        exact ⟨htr', hva, fun hte => hdisj2 i hte hva⟩

/-- Witness for C7 at `n = 4`, train `[0,1]`, rest `[2,3]`, test `[2]`,
validation `[3]`. -/
theorem c7_witness :
    (makeMask 4 [0, 1]).length = 4 ∧
    (makeMask 4 [3]).length = 4 ∧
    (makeMask 4 [2]).length = 4 ∧
    (∀ i, i < 4 →
      ((makeMask 4 [0, 1]).getD i false = true ↔ i ∈ ([0, 1] : List ℕ)) ∧
      ((makeMask 4 [3]).getD i false = true ↔ i ∈ ([3] : List ℕ)) ∧
      ((makeMask 4 [2]).getD i false = true ↔ i ∈ ([2] : List ℕ))) ∧
    (∀ i, i < 4 →
      ExactlyOne ((makeMask 4 [0, 1]).getD i false = true)
        ((makeMask 4 [3]).getD i false = true)
        ((makeMask 4 [2]).getD i false = true)) :=
  c7_masks_partition 4 [0, 1] [2, 3] [2] [3]
    (by intro i hi; simp at hi ⊢; try omega)
    (by intro i; simp; try omega)
    (by intro i hi; simp at hi ⊢; try omega)
    (by intro i; simp; try omega)

/-! ## Claim C6: unbound names -/

/-- Claim C6: executing the module resolves names statement by statement
and hits the free name `Device` at `device = torch.device(Device)`
(line 288), raising `NameError` before the epoch loop statement runs;
a call of `get_data` whose earlier statements succeed (the pickle has
the required keys) hits the free name `BatchSize` at the `ClusterLoader`
construction (line 260) and raises `NameError` before returning.  None
of the names the module-level training code uses — `Device, rs, LR,
WeightDecay, nEpochs, patience, clip, nHiddenUnits, nHeads, alpha,
dropout, d, cl, node_features, replicate` — is bound by any module-level
statement, yet each is read by one; `BatchSize` is read inside
`get_data` but bound neither there, nor in its enclosing environment,
nor at module level. -/
theorem c6_name_errors :
    (runStmt moduleStmt [] builtinsEnv).1 = .error "NameError: Device" ∧
    (runStmt getDataBody [] getDataEnv).1 = .error "NameError: BatchSize" ∧
    (∀ nm ∈ unboundNames, (stmtBinds moduleStmt).contains nm = false) ∧
    (∀ nm ∈ unboundNames, (stmtReads moduleStmt).contains nm = true) ∧
    (stmtBinds moduleStmt).contains "BatchSize" = false ∧
    (stmtBinds getDataBody).contains "BatchSize" = false ∧
    getDataEnv.contains "BatchSize" = false ∧
    (stmtReads getDataBody).contains "BatchSize" = true :=
  ⟨rfl, rfl, by decide, by decide, rfl, rfl, rfl, rfl⟩

/-! ## Claim C8: no exception handling, errors propagate unchanged -/

lemma run_no_try : ∀ (s : Stmt), countTry s = 0 →
    ∀ (k : ℕ) (e : String) (env : List String),
    (runStmt s (List.replicate k none ++ [some e]) env).1 = .error e ∨
    ∃ j, j ≤ k ∧
      runStmt s (List.replicate k none ++ [some e]) env
        = ((runStmt s (List.replicate k none) env).1,
           List.replicate j none ++ [some e]) ∧
      runStmt s (List.replicate k none) env
        = ((runStmt s (List.replicate k none) env).1,
           List.replicate j none) := by
  intro s
  induction s with
  | assign binds reads =>
    intro _ k e env
    cases hf : reads.find? (fun n => !(env.contains n)) with
    | some n =>
      right
      refine ⟨k, le_refl k, ?_, ?_⟩ <;>
        (simp only [runStmt]; rw [hf])
    | none =>
      cases k with
      | zero =>
        left
        simp only [runStmt]
        rw [hf]
        rfl
      | succ j =>
        right
        refine ⟨j, Nat.le_succ j, ?_, ?_⟩ <;>
          (simp only [runStmt]; rw [hf]; rfl)
  | seq a b iha ihb =>
    intro hs k e env
    have ha : countTry a = 0 := by simp [countTry] at hs; omega
    have hb0 : countTry b = 0 := by simp [countTry] at hs; omega
    rcases iha ha k e env with h | ⟨j, hj, hbig, hclean⟩
    · left
      simp only [runStmt]
      rcases hr : runStmt a (List.replicate k none ++ [some e]) env
        with ⟨fst, snd⟩
      rw [hr] at h
      cases fst with
      | ok env' => exact absurd h (by simp)
      | error e' => exact h
    · set ra := (runStmt a (List.replicate k none) env).1 with hra
      cases hcase : ra with
      | error e' =>
        right
        refine ⟨j, hj, ?_, ?_⟩
        · simp only [runStmt]
          rw [hbig, hclean, hcase]
        · simp only [runStmt]
          rw [hclean, hcase]
      | ok env' =>
        rcases ihb hb0 j e env' with h | ⟨j', hj', hbig', hclean'⟩
        · left
          simp only [runStmt]
          rw [hbig, hcase]
          exact h
        · right
          refine ⟨j', le_trans hj' hj, ?_, ?_⟩
          · simp only [runStmt]
            rw [hbig, hclean, hcase]
            exact hbig'
          · simp only [runStmt]
            rw [hclean, hcase]
            exact hclean'
  | tryExcept body handler iha ihb =>
    intro hs
    simp [countTry] at hs
  | skip =>
    intro _ k e env
    right
    exact ⟨k, le_refl k, by simp [runStmt], by simp [runStmt]⟩

/-- Claim C8: the script contains no `try/except` (neither at module
level nor in `get_data`), so any error raised by a dependency operation
propagates unchanged: injecting an error `e` at the `k`-th successful
external operation makes the run return exactly `.error e` — unless the
run already stopped earlier (a `NameError` or normal termination before
that operation), in which case the outcome is the unchanged outcome of
the error-free run.  No recovery code path exists. -/
theorem c8_errors_propagate :
    countTry moduleStmt = 0 ∧ countTry getDataBody = 0 ∧
    (∀ (k : ℕ) (e : String) (env : List String),
      (runStmt moduleStmt (List.replicate k none ++ [some e]) env).1
          = .error e ∨
      (runStmt moduleStmt (List.replicate k none ++ [some e]) env).1
        = (runStmt moduleStmt (List.replicate k none) env).1) ∧
    (∀ (k : ℕ) (e : String) (env : List String),
      (runStmt getDataBody (List.replicate k none ++ [some e]) env).1
          = .error e ∨
      (runStmt getDataBody (List.replicate k none ++ [some e]) env).1
        = (runStmt getDataBody (List.replicate k none) env).1) := by
  refine ⟨rfl, rfl, ?_, ?_⟩
  · intro k e env
    rcases run_no_try moduleStmt rfl k e env with h | ⟨j, _, hbig, _⟩
    · exact Or.inl h
    · right
      rw [hbig]
  · intro k e env
    rcases run_no_try getDataBody rfl k e env with h | ⟨j, _, hbig, _⟩
    · exact Or.inl h
    · right
      rw [hbig]
